import Mathlib

/-!
Shallow embedding of `_misc/readme_update_helptext.py`.

The script runs `python3 nirw-search --help` with stdout captured, reformats
the captured text (Python: `p.stdout.decode('utf-8').rstrip() + '\n\n'`, then
`'\nOutput of ``nirw-search --help``::\n\n' + textwrap.indent(help_output, '   ')`),
reads `readme.rst`, locates the two markers `.. BEGIN HELP TEXT` and
`.. END HELP TEXT` with `str.find`, and rewrites the file as
`data[:help_begin_index] + help_output + data[help_end_index:]` where
`help_begin_index` was advanced by `len(help_begin_text) + 1`.

Strings are modelled as `List Char` (Python string indices are character
indices).  Decoding of the captured bytes is abstracted: the subprocess
output enters the model already decoded, as a `List Char`.
-/

/-- Python's whitespace test `str.isspace` for a single character, the
character set used by `str.rstrip()` / `str.strip()` with no arguments. -/
def pyIsSpace (c : Char) : Bool :=
  c = ' ' || c = '\t' || c = '\n' || c = '\x0b' || c = '\x0c' || c = '\r' ||
  c = '\x1c' || c = '\x1d' || c = '\x1e' || c = '\x1f' || c = '\x85' ||
  c = '\xa0' || c = ' ' || (' ' ≤ c && c ≤ ' ') ||
  c = ' ' || c = ' ' || c = ' ' || c = ' ' || c = '　'

/-- A character that terminates a line for Python's `str.splitlines`. -/
def isBreak (c : Char) : Bool :=
  c = '\n' || c = '\r' || c = '\x0b' || c = '\x0c' ||
  c = '\x1c' || c = '\x1d' || c = '\x1e' || c = '\x85' ||
  c = ' ' || c = ' '

/-- Python `str.rstrip()` with no argument: remove trailing whitespace. -/
def pyRStrip (s : List Char) : List Char :=
  (s.reverse.dropWhile pyIsSpace).reverse

/-- Python `str.splitlines(keepends=True)`: split at line boundaries, keeping
the terminators; the two-character terminator `"\r\n"` counts as one boundary. -/
def splitKeep : List Char → List (List Char)
  | [] => []
  | c :: tl =>
    if isBreak c then
      match tl with
      | [] => [[c]]
      | d :: tl2 =>
        if c = '\r' ∧ d = '\n' then [c, d] :: splitKeep tl2
        else [c] :: splitKeep (d :: tl2)
    else
      match splitKeep tl with
      | [] => [[c]]
      | l :: ls => (c :: l) :: ls

/-- Remove one trailing line terminator (with `"\r\n"` counting as one) from a
line, the way Python's `str.splitlines()` (without keepends) truncates lines. -/
def dropLineEnd (l : List Char) : List Char :=
  match l.reverse with
  | [] => []
  | c :: r =>
    if c = '\n' then
      match r with
      | d :: r2 => if d = '\r' then r2.reverse else r.reverse
      | [] => []
    else if isBreak c then r.reverse else l

/-- Python `str.splitlines()` (keepends=False). -/
def pySplitLines (s : List Char) : List (List Char) :=
  (splitKeep s).map dropLineEnd

/-- Truthiness of `line.strip()`, the default predicate of `textwrap.indent`:
the line contains at least one non-whitespace character. -/
def hasContent (l : List Char) : Bool :=
  l.any (fun c => !(pyIsSpace c))

/-- Python `textwrap.indent(text, pre)` with the default predicate: add the
prefix to every line that contains a non-whitespace character. -/
def textwrapIndent (text pre : List Char) : List Char :=
  ((splitKeep text).map (fun l => if hasContent l then pre ++ l else l)).flatten

/-- The literal `help_begin_text` of the script. -/
def helpBeginText : List Char := ".. BEGIN HELP TEXT".data

/-- The literal `help_end_text` of the script. -/
def helpEndText : List Char := ".. END HELP TEXT".data

/-- The fixed text the script prepends to the indented help output. -/
def helpLabel : List Char := "\nOutput of ``nirw-search --help``::\n\n".data

/-- The three-space indentation prefix passed to `textwrap.indent`. -/
def threeSpaces : List Char := "   ".data

/-- The `help_output` value of the script: captured stdout (already decoded),
`rstrip`-ped, with two newlines appended, indented by three spaces, and with
the fixed label text prepended. -/
def formatHelp (stdout : List Char) : List Char :=
  helpLabel ++ textwrapIndent (pyRStrip stdout ++ ['\n', '\n']) threeSpaces

/-- First index `j` at which `needle` occurs in `l` (as `some j`), scanning
left to right; `none` when there is no occurrence. -/
def subFindAux (needle : List Char) : List Char → Option Nat
  | [] => if needle.isPrefixOf [] then some 0 else none
  | c :: tl =>
    if needle.isPrefixOf (c :: tl) then some 0
    else (subFindAux needle tl).map (· + 1)

/-- First occurrence of `needle` in `data` at an index `≥ s`. -/
def findFrom (data needle : List Char) (s : Nat) : Option Nat :=
  (subFindAux needle (data.drop s)).map (· + s)

/-- Python `data.find(needle, start)`: `-1` when absent, otherwise the least
occurrence index at or after `start`; a negative `start` counts from the end
of the string and is clamped at `0`, as in CPython. -/
def pyFind (data needle : List Char) (start : Int) : Int :=
  let s : Nat := if start < 0 then (data.length + start).toNat else start.toNat
  match findFrom data needle s with
  | some j => (j : Int)
  | none => -1

/-- Outcome of one run of the script's `main` after the subprocess call:
either of the two `print('Error: ... not found')`-and-`return` branches
(each names the marker that was not found), or the text written back to
`readme.rst`. -/
inductive SyncResult where
  | errorBeginMissing : SyncResult
  | errorEndMissing : SyncResult
  | written : List Char → SyncResult
deriving DecidableEq, Repr

/-- The marker search and splice of `main`, given the decoded captured stdout
and the document text: mirrors lines 29–46 of the script, including the fact
that the end-marker search starts at `help_begin_index` and that the splice
index is `help_begin_index + len(help_begin_text) + 1`, unconditionally. -/
def syncHelpBlock (stdout data : List Char) : SyncResult :=
  let help_output := formatHelp stdout
  let help_begin_index := pyFind data helpBeginText 0
  let help_end_index := pyFind data helpEndText help_begin_index
  if help_begin_index = -1 then .errorBeginMissing
  else if help_end_index = -1 then .errorEndMissing
  else
    let splice := help_begin_index.toNat + helpBeginText.length + 1
    .written (data.take splice ++ help_output ++ data.drop help_end_index.toNat)

/-- Contents of `readme.rst` after one run with the given captured stdout:
the file is rewritten only in the `.written` branch. -/
def fileAfter (stdout data : List Char) : List Char :=
  match syncHelpBlock stdout data with
  | .written d => d
  | _ => data

/-- Result of `subprocess.run([... , '--help'], stdout=subprocess.PIPE)`:
the exit status and the captured standard output (already decoded). -/
structure CompletedProcess where
  returncode : Int
  stdout : List Char
deriving DecidableEq, Repr

/-- The whole of `main` including the subprocess step.  `none` for the launch
result models `subprocess.run` itself raising (e.g. the interpreter cannot be
spawned), which propagates out of `main` before any file access; otherwise
`main` uses `p.stdout` and never consults `p.returncode` (the call has no
`check=True`). -/
def runMain (launch : Option CompletedProcess) (data : List Char) :
    Option SyncResult :=
  match launch with
  | none => none
  | some p => some (syncHelpBlock p.stdout data)

/-- Occurrence test: `needle` occurs in `data` at index `j`. -/
def occursAt (data needle : List Char) (j : Nat) : Bool :=
  needle.isPrefixOf (data.drop j)

/-- Least occurrence of `needle` in `data` among indices at or after `s`. -/
def firstOccFrom (data needle : List Char) (s j : Nat) : Prop :=
  s ≤ j ∧ occursAt data needle j = true ∧
    ∀ k, k < j → s ≤ k → occursAt data needle k = false

instance (data needle : List Char) (s j : Nat) :
    Decidable (firstOccFrom data needle s j) := by
  unfold firstOccFrom; infer_instance

/-! ### Occurrence lemmas -/

theorem occursAt_iff_take (data needle : List Char) (j : Nat) :
    occursAt data needle j = true ↔ (data.drop j).take needle.length = needle := by
  unfold occursAt
  rw [List.isPrefixOf_iff_prefix, List.prefix_iff_eq_take]
  exact eq_comm

theorem occursAt_length_le (data needle : List Char) (j : Nat) (hne : needle ≠ [])
    (h : occursAt data needle j = true) : j + needle.length ≤ data.length := by
  rw [occursAt_iff_take] at h
  have hl := congrArg List.length h
  have hne' : 0 < needle.length := List.length_pos.mpr hne
  simp only [List.length_take, List.length_drop] at hl
  omega

theorem occursAt_getD (data needle : List Char) (j i : Nat) (d : Char)
    (h : occursAt data needle j = true) (hi : i < needle.length) :
    data.getD (j + i) d = needle.getD i d := by
  rw [occursAt_iff_take] at h
  conv_rhs => rw [← h]
  rw [List.getD_eq_getElem?_getD, List.getD_eq_getElem?_getD]
  rw [List.getElem?_take_of_lt hi, List.getElem?_drop]

theorem occursAt_take (data needle : List Char) (m j : Nat)
    (h : occursAt (data.take m) needle j = true) : occursAt data needle j = true := by
  rw [occursAt_iff_take] at h ⊢
  rw [List.drop_take, List.take_take] at h
  have hl := congrArg List.length h
  simp only [List.length_take, List.length_drop] at hl
  have hmin : min needle.length (m - j) = needle.length := by omega
  rwa [hmin] at h

theorem occursAt_append_left_iff (P R needle : List Char) (j : Nat)
    (h : j + needle.length ≤ P.length) :
    (occursAt (P ++ R) needle j = true ↔ occursAt P needle j = true) := by
  rw [occursAt_iff_take, occursAt_iff_take,
    List.drop_append_of_le_length (by omega),
    List.take_append_of_le_length (by simp; omega)]

theorem occursAt_append_right (P R needle : List Char) (j : Nat)
    (h : occursAt R needle j = true) : occursAt (P ++ R) needle (P.length + j) = true := by
  unfold occursAt at h ⊢
  rw [List.drop_append_eq_append_drop,
    List.drop_eq_nil_of_le (by omega), Nat.add_sub_cancel_left]
  simpa using h

theorem prefix_split (needle X R : List Char)
    (h : needle.isPrefixOf (X ++ R) = true) (hle : X.length ≤ needle.length) :
    X = needle.take X.length ∧ (needle.drop X.length).isPrefixOf R = true := by
  rw [List.isPrefixOf_iff_prefix, List.prefix_iff_eq_take,
    List.take_append_eq_append_take, List.take_of_length_le hle] at h
  constructor
  · conv_rhs => rw [h]
    rw [List.take_left]
  · rw [List.isPrefixOf_iff_prefix, List.prefix_iff_eq_take]
    conv_lhs => rw [h]
    rw [List.drop_left]
    congr 1
    simp only [List.length_drop]

/-! ### Characterisation of the find functions -/

theorem subFindAux_some_iff (needle l : List Char) (j : Nat) :
    subFindAux needle l = some j ↔
      needle.isPrefixOf (l.drop j) = true ∧
      ∀ k, k < j → needle.isPrefixOf (l.drop k) = false := by
  induction l generalizing j with
  | nil =>
    simp only [subFindAux, List.drop_nil]
    by_cases hp : needle.isPrefixOf [] = true
    · rw [if_pos hp]
      constructor
      · rintro h
        injection h with h
        subst h
        exact ⟨hp, by omega⟩
      · rintro ⟨-, hmin⟩
        rcases Nat.eq_zero_or_pos j with rfl | hj
        · rfl
        · have := hmin 0 hj
          rw [hp] at this
          cases this
    · rw [if_neg hp]
      constructor
      · rintro ⟨⟩
      · rintro ⟨h, -⟩
        exact absurd h hp
  | cons c tl ih =>
    simp only [subFindAux]
    by_cases hp : needle.isPrefixOf (c :: tl) = true
    · rw [if_pos hp]
      constructor
      · rintro h
        injection h with h
        subst h
        exact ⟨by simpa using hp, by omega⟩
      · rintro ⟨-, hmin⟩
        rcases Nat.eq_zero_or_pos j with rfl | hj
        · rfl
        · have := hmin 0 hj
          rw [List.drop_zero, hp] at this
          cases this
    · rw [if_neg hp]
      constructor
      · intro h
        rcases Option.map_eq_some'.mp h with ⟨a, ha, rfl⟩
        rcases (ih a).mp ha with ⟨hocc, hmin⟩
        refine ⟨by simpa using hocc, ?_⟩
        intro k hk
        match k with
        | 0 =>
          simp only [List.drop_zero]
          exact Bool.not_eq_true _ ▸ hp
        | k + 1 =>
          simpa using hmin k (by omega)
      · rintro ⟨hocc, hmin⟩
        match j with
        | 0 =>
          rw [List.drop_zero] at hocc
          exact absurd hocc hp
        | j + 1 =>
          rw [Option.map_eq_some']
          refine ⟨j, (ih j).mpr ⟨by simpa using hocc, ?_⟩, rfl⟩
          intro k hk
          simpa using hmin (k + 1) (by omega)

theorem subFindAux_none_iff (needle l : List Char) :
    subFindAux needle l = none ↔ ∀ k, needle.isPrefixOf (l.drop k) = false := by
  induction l with
  | nil =>
    simp only [subFindAux, List.drop_nil]
    by_cases hp : needle.isPrefixOf [] = true
    · rw [if_pos hp]
      constructor
      · rintro ⟨⟩
      · intro h
        rw [h 0] at hp
        cases hp
    · rw [if_neg hp]
      simp only [true_iff]
      intro k
      exact Bool.not_eq_true _ ▸ hp
  | cons c tl ih =>
    simp only [subFindAux]
    by_cases hp : needle.isPrefixOf (c :: tl) = true
    · rw [if_pos hp]
      constructor
      · rintro ⟨⟩
      · intro h
        have := h 0
        rw [List.drop_zero, hp] at this
        cases this
    · rw [if_neg hp]
      rw [Option.map_eq_none', ih]
      constructor
      · intro h k
        match k with
        | 0 =>
          simp only [List.drop_zero]
          exact Bool.not_eq_true _ ▸ hp
        | k + 1 => simpa using h k
      · intro h k
        simpa using h (k + 1)

theorem findFrom_some_iff (data needle : List Char) (s j : Nat) :
    findFrom data needle s = some j ↔ firstOccFrom data needle s j := by
  unfold findFrom firstOccFrom occursAt
  rw [Option.map_eq_some']
  constructor
  · rintro ⟨a, ha, rfl⟩
    rcases (subFindAux_some_iff needle _ a).mp ha with ⟨hocc, hmin⟩
    rw [List.drop_drop] at hocc
    refine ⟨by omega, by rwa [Nat.add_comm s a] at hocc, ?_⟩
    intro k hk hsk
    have := hmin (k - s) (by omega)
    rwa [List.drop_drop, Nat.add_sub_cancel' hsk] at this
  · rintro ⟨hs, hocc, hmin⟩
    refine ⟨j - s, ?_, by omega⟩
    rw [subFindAux_some_iff]
    constructor
    · rwa [List.drop_drop, Nat.add_sub_cancel' hs]
    · intro k hk
      have := hmin (s + k) (by omega) (by omega)
      rw [List.drop_drop]
      exact this

theorem findFrom_none_iff (data needle : List Char) (s : Nat) :
    findFrom data needle s = none ↔
      ∀ k, s ≤ k → occursAt data needle k = false := by
  unfold findFrom occursAt
  rw [Option.map_eq_none', subFindAux_none_iff]
  constructor
  · intro h k hsk
    have := h (k - s)
    rwa [List.drop_drop, Nat.add_sub_cancel' hsk] at this
  · intro h k
    have := h (s + k) (by omega)
    rw [List.drop_drop]
    exact this

theorem pyFind_natCast (data needle : List Char) (s : Nat) :
    pyFind data needle (s : Int) =
      match findFrom data needle s with
      | some j => (j : Int)
      | none => -1 := by
  unfold pyFind
  have h1 : ¬ ((s : Int) < 0) := by omega
  rw [if_neg h1, Int.toNat_natCast]

theorem pyFind_eq_neg_one_iff (data needle : List Char) (s : Nat) :
    pyFind data needle (s : Int) = -1 ↔ findFrom data needle s = none := by
  rw [pyFind_natCast]
  cases h : findFrom data needle s with
  | none => simp
  | some j => simp

theorem pyFind_eq_natCast_iff (data needle : List Char) (s j : Nat) :
    pyFind data needle (s : Int) = (j : Int) ↔ findFrom data needle s = some j := by
  rw [pyFind_natCast]
  cases h : findFrom data needle s with
  | none => simp
  | some a => simp

/-! ### Marker constants -/

theorem length_helpBeginText : helpBeginText.length = 18 := by decide

theorem length_helpEndText : helpEndText.length = 16 := by decide

theorem helpBeginText_ne_nil : helpBeginText ≠ [] := by decide

theorem helpEndText_ne_nil : helpEndText ≠ [] := by decide

/-! ### Branch behaviour of the splice -/

theorem pyFind_zero (data needle : List Char) :
    pyFind data needle 0 =
      match findFrom data needle 0 with
      | some j => (j : Int)
      | none => -1 := by
  have h := pyFind_natCast data needle 0
  simpa using h

theorem sync_eq_written (stdout data : List Char) (b e : Nat)
    (hb : firstOccFrom data helpBeginText 0 b)
    (he : firstOccFrom data helpEndText b e) :
    syncHelpBlock stdout data =
      .written (data.take (b + 19) ++ formatHelp stdout ++ data.drop e) := by
  have hb' : findFrom data helpBeginText 0 = some b :=
    (findFrom_some_iff data helpBeginText 0 b).mpr hb
  have he' : findFrom data helpEndText b = some e :=
    (findFrom_some_iff data helpEndText b e).mpr he
  have h1 : pyFind data helpBeginText 0 = (b : Int) := by
    rw [pyFind_zero, hb']
  have h2 : pyFind data helpEndText (b : Int) = (e : Int) := by
    rw [pyFind_natCast, he']
  unfold syncHelpBlock
  have h3 : b + 18 + 1 = b + 19 := by omega
  simp only [h1, h2, Int.toNat_natCast, length_helpBeginText, h3,
    if_neg (by omega : ¬ ((b : Int) = -1)), if_neg (by omega : ¬ ((e : Int) = -1))]

theorem sync_eq_errorBegin (stdout data : List Char)
    (h : ∀ k, occursAt data helpBeginText k = false) :
    syncHelpBlock stdout data = .errorBeginMissing := by
  have h' : findFrom data helpBeginText 0 = none :=
    (findFrom_none_iff data helpBeginText 0).mpr (fun k _ => h k)
  unfold syncHelpBlock
  rw [pyFind_zero, h']
  rfl

theorem sync_eq_errorEnd (stdout data : List Char) (b : Nat)
    (hb : firstOccFrom data helpBeginText 0 b)
    (h : ∀ k, b ≤ k → occursAt data helpEndText k = false) :
    syncHelpBlock stdout data = .errorEndMissing := by
  have hb' : findFrom data helpBeginText 0 = some b :=
    (findFrom_some_iff data helpBeginText 0 b).mpr hb
  have he' : findFrom data helpEndText b = none :=
    (findFrom_none_iff data helpEndText b).mpr h
  have h1 : pyFind data helpBeginText 0 = (b : Int) := by
    rw [pyFind_zero, hb']
  have h2 : pyFind data helpEndText (b : Int) = -1 := by
    rw [pyFind_natCast, he']
  unfold syncHelpBlock
  simp only [h1, h2, if_neg (by omega : ¬ ((b : Int) = -1))]
  simp

theorem sync_written_inv (stdout data u : List Char)
    (h : syncHelpBlock stdout data = .written u) :
    ∃ b e, firstOccFrom data helpBeginText 0 b ∧ firstOccFrom data helpEndText b e ∧
      u = data.take (b + 19) ++ formatHelp stdout ++ data.drop e := by
  rcases hfb : findFrom data helpBeginText 0 with _ | b
  · rw [sync_eq_errorBegin stdout data
      (fun k => (findFrom_none_iff data helpBeginText 0).mp hfb k (Nat.zero_le k))] at h
    cases h
  · have hb := (findFrom_some_iff data helpBeginText 0 b).mp hfb
    rcases hfe : findFrom data helpEndText b with _ | e
    · rw [sync_eq_errorEnd stdout data b hb
        ((findFrom_none_iff data helpEndText b).mp hfe)] at h
      cases h
    · have he := (findFrom_some_iff data helpEndText b e).mp hfe
      refine ⟨b, e, hb, he, ?_⟩
      rw [sync_eq_written stdout data b e hb he] at h
      injection h with h
      exact h.symm

/-! ### Helpers about indices and the marker window -/

theorem occursAt_false_of_length (data needle : List Char) (k : Nat) (hne : needle ≠ [])
    (h : data.length < k + needle.length) : occursAt data needle k = false := by
  by_contra hc
  rw [Bool.not_eq_false] at hc
  have := occursAt_length_le data needle k hne hc
  omega

theorem take_succ_getD (l : List Char) (n : Nat) (d : Char) (h : n < l.length) :
    l.take (n + 1) = l.take n ++ [l.getD n d] := by
  rw [List.getD_eq_getElem l d h, List.take_succ, List.getElem?_eq_getElem h]
  rfl

theorem getD_drop (l : List Char) (n i : Nat) (d : Char) :
    (l.drop n).getD i d = l.getD (n + i) d := by
  rw [List.getD_eq_getElem?_getD, List.getD_eq_getElem?_getD, List.getElem?_drop]

/-- No occurrence of the end marker can start inside the begin marker: an end
occurrence at or after a begin occurrence lies at least 18 characters later. -/
theorem end_occ_ge (data : List Char) (b d : Nat)
    (hb : occursAt data helpBeginText b = true)
    (he : occursAt data helpEndText (b + d) = true) : 18 ≤ d := by
  by_contra hlt
  have hchars : ∀ i, i < 16 → d + i < 18 →
      helpEndText.getD i ' ' = helpBeginText.getD (d + i) ' ' := by
    intro i hi hdi
    rw [← occursAt_getD data helpEndText (b + d) i ' ' he
      (by rw [length_helpEndText]; omega)]
    rw [← occursAt_getD data helpBeginText b (d + i) ' ' hb
      (by rw [length_helpBeginText]; omega)]
    rw [Nat.add_assoc]
  have hdec : ∀ d', d' < 18 →
      ¬ (∀ i, i < 16 → d' + i < 18 →
        helpEndText.getD i ' ' = helpBeginText.getD (d' + i) ' ') := by decide
  exact hdec d (by omega) hchars

/-- In a successful run the end marker sits at least one full begin marker
after the begin index, and both windows fit inside the document. -/
theorem success_window (data : List Char) (b e : Nat)
    (hb : firstOccFrom data helpBeginText 0 b)
    (he : firstOccFrom data helpEndText b e) :
    b + 18 ≤ e ∧ e + 16 ≤ data.length ∧ b + 19 ≤ data.length := by
  obtain ⟨-, hbocc, -⟩ := hb
  obtain ⟨hbe, heocc, -⟩ := he
  have h1 : 18 ≤ e - b :=
    end_occ_ge data b (e - b) hbocc (by rwa [Nat.add_sub_cancel' hbe])
  have h2 : e + 16 ≤ data.length := by
    have := occursAt_length_le data helpEndText e helpEndText_ne_nil heocc
    rwa [length_helpEndText] at this
  exact ⟨by omega, h2, by omega⟩

/-- The preserved prefix of a successful splice ends with the begin marker and
exactly one further character of the document, whatever that character is. -/
theorem take_begin_decomp (data : List Char) (b : Nat)
    (hocc : occursAt data helpBeginText b = true) (hlen : b + 19 ≤ data.length) :
    data.take (b + 19) = data.take b ++ (helpBeginText ++ [data.getD (b + 18) ' ']) := by
  have h1 : data.take (b + 19) = data.take b ++ (data.drop b).take 19 :=
    List.take_add data b 19
  rw [h1]
  congr 1
  have h2 : (18 : Nat) < (data.drop b).length := by
    rw [List.length_drop]; omega
  rw [take_succ_getD (data.drop b) 18 ' ' h2, getD_drop]
  congr 1
  rw [← length_helpBeginText]
  exact (occursAt_iff_take data helpBeginText b).mp hocc

theorem take_append_self (A R : List Char) (n : Nat) (h : A.length = n) :
    (A ++ R).take n = A := by
  subst h
  exact List.take_left A R

theorem drop_append_self (A R : List Char) (n : Nat) (h : A.length = n) :
    (A ++ R).drop n = R := by
  subst h
  exact List.drop_left A R

/-! ### Claim theorems -/

/-- C1: if the begin marker is absent from the document text, or the end
marker has no occurrence at or after the (first) begin-marker position — in
particular when it appears only before the begin marker — the run ends in the
corresponding error branch, whose diagnostic names the missing marker, and
the document contents after the run equal the contents before, byte for byte. -/
theorem C1_missing_marker_no_write (stdout data : List Char) :
    ((∀ k, k < data.length → occursAt data helpBeginText k = false) →
      syncHelpBlock stdout data = .errorBeginMissing ∧ fileAfter stdout data = data) ∧
    (∀ b, firstOccFrom data helpBeginText 0 b →
      (∀ k, k < data.length → b ≤ k → occursAt data helpEndText k = false) →
      syncHelpBlock stdout data = .errorEndMissing ∧ fileAfter stdout data = data) := by
  constructor
  · intro h
    have hall : ∀ k, occursAt data helpBeginText k = false := by
      intro k
      by_cases hk : k < data.length
      · exact h k hk
      · exact occursAt_false_of_length data helpBeginText k helpBeginText_ne_nil
          (by rw [length_helpBeginText]; omega)
    have hs := sync_eq_errorBegin stdout data hall
    exact ⟨hs, by simp [fileAfter, hs]⟩
  · intro b hb h
    have hall : ∀ k, b ≤ k → occursAt data helpEndText k = false := by
      intro k hbk
      by_cases hk : k < data.length
      · exact h k hk hbk
      · exact occursAt_false_of_length data helpEndText k helpEndText_ne_nil
          (by rw [length_helpEndText]; omega)
    have hs := sync_eq_errorEnd stdout data b hb hall
    exact ⟨hs, by simp [fileAfter, hs]⟩

/-- C1 witness: a document without the begin marker, and a document whose end
marker occurs only before its begin marker; neither is modified. -/
theorem C1_witness :
    (syncHelpBlock "h".data "no begin here\n.. END HELP TEXT\n".data =
        .errorBeginMissing ∧
      fileAfter "h".data "no begin here\n.. END HELP TEXT\n".data =
        "no begin here\n.. END HELP TEXT\n".data) ∧
    (syncHelpBlock "h".data ".. END HELP TEXT\nmid\n.. BEGIN HELP TEXT\ntail".data =
        .errorEndMissing ∧
      fileAfter "h".data ".. END HELP TEXT\nmid\n.. BEGIN HELP TEXT\ntail".data =
        ".. END HELP TEXT\nmid\n.. BEGIN HELP TEXT\ntail".data) :=
  ⟨(C1_missing_marker_no_write "h".data _).1 (by decide),
   (C1_missing_marker_no_write "h".data _).2 21 (by decide) (by decide)⟩

/-- C2: for a document containing the begin marker followed, at or after it,
by the end marker, the updated text is
`data[0 : splice] ++ FormattedBlock ++ data[e : end]` with the splice point
immediately after the begin-marker text plus one further character; the
prefix up to the splice point and the suffix from the end marker on are
byte-identical to the original document. -/
theorem C2_splice_equation (stdout data : List Char) (b e : Nat)
    (hb : firstOccFrom data helpBeginText 0 b)
    (he : firstOccFrom data helpEndText b e) :
    syncHelpBlock stdout data =
      .written (data.take (b + helpBeginText.length + 1) ++ formatHelp stdout ++
        data.drop e) ∧
    (data.take (b + helpBeginText.length + 1) ++ formatHelp stdout ++
        data.drop e).take (b + helpBeginText.length + 1) =
      data.take (b + helpBeginText.length + 1) ∧
    (data.take (b + helpBeginText.length + 1) ++ formatHelp stdout ++
        data.drop e).drop
        (b + helpBeginText.length + 1 + (formatHelp stdout).length) =
      data.drop e := by
  have hw := success_window data b e hb he
  rw [length_helpBeginText]
  have h19 : b + 18 + 1 = b + 19 := by omega
  rw [h19]
  have hlenA : (data.take (b + 19)).length = b + 19 := by
    rw [List.length_take]; omega
  refine ⟨sync_eq_written stdout data b e hb he, ?_, ?_⟩
  · rw [List.append_assoc]
    exact take_append_self _ _ _ hlenA
  · refine drop_append_self _ _ _ ?_
    rw [List.length_append, hlenA]

/-- C2 witness: the splice equation at the spec's concrete document. -/
theorem C2_witness :
    firstOccFrom "intro\n.. BEGIN HELP TEXT\nOLD\n.. END HELP TEXT\nrest\n".data
      helpBeginText 0 6 ∧
    firstOccFrom "intro\n.. BEGIN HELP TEXT\nOLD\n.. END HELP TEXT\nrest\n".data
      helpEndText 6 29 ∧
    syncHelpBlock "usage: tool [-h]\n".data
        "intro\n.. BEGIN HELP TEXT\nOLD\n.. END HELP TEXT\nrest\n".data =
      .written ("intro\n.. BEGIN HELP TEXT\nOLD\n.. END HELP TEXT\nrest\n".data.take
          (6 + helpBeginText.length + 1) ++
        formatHelp "usage: tool [-h]\n".data ++
        "intro\n.. BEGIN HELP TEXT\nOLD\n.. END HELP TEXT\nrest\n".data.drop 29) :=
  ⟨by decide, by decide,
   (C2_splice_equation "usage: tool [-h]\n".data
     "intro\n.. BEGIN HELP TEXT\nOLD\n.. END HELP TEXT\nrest\n".data 6 29
     (by decide) (by decide)).1⟩

/-- C3: the spec's concrete scenario, with the implementation's fixed label
line `Output of ``nirw-search --help``::`: the updated document is exactly
the expected text. -/
theorem C3_concrete_scenario :
    syncHelpBlock "usage: tool [-h]\n\noptions:\n  -h, --help  show help\n".data
        "intro\n.. BEGIN HELP TEXT\nOLD\n.. END HELP TEXT\nrest\n".data =
      .written ("intro\n.. BEGIN HELP TEXT\n\nOutput of ``nirw-search --help``::\n\n   usage: tool [-h]\n\n   options:\n     -h, --help  show help\n\n.. END HELP TEXT\nrest\n".data) := by
  decide

/-- C6 counterexample: the subprocess exits with status 1, yet the operation
does not propagate a failure — it proceeds to splice the captured output and
rewrites the document to a different text. -/
theorem C6_counterexample :
    (1 : Int) ≠ 0 ∧
    runMain (some ⟨1, "helptext".data⟩)
        "p\n.. BEGIN HELP TEXT\nq\n.. END HELP TEXT\nr\n".data =
      some (.written
        "p\n.. BEGIN HELP TEXT\n\nOutput of ``nirw-search --help``::\n\n   helptext\n\n.. END HELP TEXT\nr\n".data) ∧
    "p\n.. BEGIN HELP TEXT\n\nOutput of ``nirw-search --help``::\n\n   helptext\n\n.. END HELP TEXT\nr\n".data ≠
      "p\n.. BEGIN HELP TEXT\nq\n.. END HELP TEXT\nr\n".data := by
  refine ⟨by decide, ?_, by decide⟩
  decide

/-- C6 (amended): a failure to launch the subprocess propagates out of `main`
with nothing written, but the exit status of a launched subprocess is ignored
— `main` never reads `returncode`, so the splice proceeds identically for any
exit status, including non-zero ones. -/
theorem C6_launch_propagates_exit_ignored (data stdoutText : List Char) (rc rc2 : Int) :
    runMain none data = none ∧
    runMain (some ⟨rc, stdoutText⟩) data = runMain (some ⟨rc2, stdoutText⟩) data ∧
    runMain (some ⟨rc, stdoutText⟩) data = some (syncHelpBlock stdoutText data) :=
  ⟨rfl, rfl, rfl⟩

/-- C9: marker uniqueness is not enforced: whenever `b` is the first
occurrence of the begin marker and `e` the first occurrence of the end marker
at or after `b`, the operation does not abort and splices there, keeping the
whole suffix from `e` on — where any later marker occurrences live —
byte-identical. -/
theorem C9_first_occurrences_used (stdout data : List Char) (b e : Nat)
    (hb : firstOccFrom data helpBeginText 0 b)
    (he : firstOccFrom data helpEndText b e) :
    ∃ u, syncHelpBlock stdout data = .written u ∧
      u = data.take (b + 19) ++ formatHelp stdout ++ data.drop e ∧
      u.drop (b + 19 + (formatHelp stdout).length) = data.drop e := by
  have hw := success_window data b e hb he
  refine ⟨data.take (b + 19) ++ formatHelp stdout ++ data.drop e,
    sync_eq_written stdout data b e hb he, rfl, ?_⟩
  refine drop_append_self _ _ _ ?_
  rw [List.length_append, List.length_take]
  omega

/-- C9 witness: a document with two begin markers and two end markers; the
first begin occurrence (index 2) and first end occurrence at or after it
(index 23) are used, and the later pair (indices 42 and 63) is not searched
for; the run does not abort. -/
theorem C9_witness :
    occursAt "A\n.. BEGIN HELP TEXT\nx\n.. END HELP TEXT\nB\n.. BEGIN HELP TEXT\ny\n.. END HELP TEXT\nC\n".data
      helpBeginText 42 = true ∧
    occursAt "A\n.. BEGIN HELP TEXT\nx\n.. END HELP TEXT\nB\n.. BEGIN HELP TEXT\ny\n.. END HELP TEXT\nC\n".data
      helpEndText 63 = true ∧
    (∃ u, syncHelpBlock "h".data
        "A\n.. BEGIN HELP TEXT\nx\n.. END HELP TEXT\nB\n.. BEGIN HELP TEXT\ny\n.. END HELP TEXT\nC\n".data =
        .written u ∧
      u = "A\n.. BEGIN HELP TEXT\nx\n.. END HELP TEXT\nB\n.. BEGIN HELP TEXT\ny\n.. END HELP TEXT\nC\n".data.take (2 + 19) ++
        formatHelp "h".data ++
        "A\n.. BEGIN HELP TEXT\nx\n.. END HELP TEXT\nB\n.. BEGIN HELP TEXT\ny\n.. END HELP TEXT\nC\n".data.drop 23 ∧
      u.drop (2 + 19 + (formatHelp "h".data).length) =
        "A\n.. BEGIN HELP TEXT\nx\n.. END HELP TEXT\nB\n.. BEGIN HELP TEXT\ny\n.. END HELP TEXT\nC\n".data.drop 23) :=
  ⟨by decide, by decide,
   C9_first_occurrences_used "h".data _ 2 23 (by decide) (by decide)⟩

/-- C10: the splice point is the begin-marker index plus the marker length
plus one, unconditionally: exactly the one character at index `b + 18` is
preserved after the marker, whatever character it is — no newline check is
made. -/
theorem C10_one_char_preserved (stdout data : List Char) (b e : Nat)
    (hb : firstOccFrom data helpBeginText 0 b)
    (he : firstOccFrom data helpEndText b e) :
    syncHelpBlock stdout data =
      .written ((data.take b ++ (helpBeginText ++ [data.getD (b + 18) ' '])) ++
        formatHelp stdout ++ data.drop e) := by
  have hw := success_window data b e hb he
  rw [sync_eq_written stdout data b e hb he,
    take_begin_decomp data b hb.2.1 hw.2.2]

/-- C10 witness: the character after the begin marker is `X`, not a newline,
and it is still the single preserved character. -/
theorem C10_witness :
    firstOccFrom "z.. BEGIN HELP TEXTXtail.. END HELP TEXTz".data helpBeginText 0 1 ∧
    firstOccFrom "z.. BEGIN HELP TEXTXtail.. END HELP TEXTz".data helpEndText 1 24 ∧
    "z.. BEGIN HELP TEXTXtail.. END HELP TEXTz".data.getD (1 + 18) ' ' = 'X' ∧
    syncHelpBlock "h".data "z.. BEGIN HELP TEXTXtail.. END HELP TEXTz".data =
      .written (("z.. BEGIN HELP TEXTXtail.. END HELP TEXTz".data.take 1 ++
          (helpBeginText ++
            ["z.. BEGIN HELP TEXTXtail.. END HELP TEXTz".data.getD (1 + 18) ' '])) ++
        formatHelp "h".data ++
        "z.. BEGIN HELP TEXTXtail.. END HELP TEXTz".data.drop 24) :=
  ⟨by decide, by decide, by decide,
   C10_one_char_preserved "h".data _ 1 24 (by decide) (by decide)⟩

/-! ### Structure of `splitKeep` -/

theorem isBreak_isSpace (c : Char) (h : isBreak c = true) : pyIsSpace c = true := by
  simp only [isBreak, Bool.or_eq_true, decide_eq_true_eq] at h
  rcases h with (((((((((h|h)|h)|h)|h)|h)|h)|h)|h)|h) <;> subst h <;> decide

theorem hasContent_single_break (c : Char) (h : isBreak c = true) :
    hasContent [c] = false := by
  simp [hasContent, isBreak_isSpace c h]

theorem splitKeep_nil : splitKeep [] = [] := rfl

theorem splitKeep_single (c : Char) : splitKeep [c] = [[c]] := by
  by_cases hc : isBreak c = true
  · conv_lhs => unfold splitKeep
    rw [if_pos hc]
  · conv_lhs => unfold splitKeep
    rw [if_neg hc]
    rfl

theorem splitKeep_crlf (X : List Char) :
    splitKeep ('\r' :: '\n' :: X) = ['\r', '\n'] :: splitKeep X := rfl

theorem splitKeep_cons_shape (x : Char) (X : List Char) :
    ∃ r t, splitKeep (x :: X) = (x :: r) :: t := by
  by_cases hx : isBreak x = true
  · cases X with
    | nil => exact ⟨[], [], splitKeep_single x⟩
    | cons d tl2 =>
      by_cases hcd : x = '\r' ∧ d = '\n'
      · obtain ⟨h1, h2⟩ := hcd
        subst h1; subst h2
        exact ⟨['\n'], splitKeep tl2, splitKeep_crlf tl2⟩
      · refine ⟨[], splitKeep (d :: tl2), ?_⟩
        conv_lhs => unfold splitKeep
        rw [if_pos hx]
        show (if x = '\r' ∧ d = '\n' then [x, d] :: splitKeep tl2
          else [x] :: splitKeep (d :: tl2)) = (x :: []) :: splitKeep (d :: tl2)
        rw [if_neg hcd]
  · rcases hsk : splitKeep X with _ | ⟨l, ls⟩
    · refine ⟨[], [], ?_⟩
      conv_lhs => unfold splitKeep
      rw [if_neg hx]
      show (match splitKeep X with
        | [] => [[x]]
        | l :: ls => (x :: l) :: ls) = (x :: []) :: []
      rw [hsk]
    · refine ⟨l, ls, ?_⟩
      conv_lhs => unfold splitKeep
      rw [if_neg hx]
      show (match splitKeep X with
        | [] => [[x]]
        | l :: ls => (x :: l) :: ls) = (x :: l) :: ls
      rw [hsk]

theorem splitKeep_eq_nil_iff (X : List Char) : splitKeep X = [] ↔ X = [] := by
  constructor
  · intro h
    cases X with
    | nil => rfl
    | cons c tl =>
      obtain ⟨r, t, hs⟩ := splitKeep_cons_shape c tl
      rw [hs] at h
      cases h
  · rintro rfl
    rfl

theorem splitKeep_cons_break (c : Char) (X : List Char) (hc : isBreak c = true)
    (hcr : ¬ (c = '\r' ∧ X.head? = some '\n')) :
    splitKeep (c :: X) = [c] :: splitKeep X := by
  cases X with
  | nil => rw [splitKeep_single]; rfl
  | cons d tl2 =>
    have hcd : ¬ (c = '\r' ∧ d = '\n') := fun h => hcr ⟨h.1, by simp [h.2]⟩
    conv_lhs => unfold splitKeep
    rw [if_pos hc]
    show (if c = '\r' ∧ d = '\n' then [c, d] :: splitKeep tl2
      else [c] :: splitKeep (d :: tl2)) = [c] :: splitKeep (d :: tl2)
    rw [if_neg hcd]

theorem splitKeep_cons_nonbreak (c : Char) (X : List Char) (l : List Char)
    (ls : List (List Char)) (hc : isBreak c = false) (hX : splitKeep X = l :: ls) :
    splitKeep (c :: X) = (c :: l) :: ls := by
  conv_lhs => unfold splitKeep
  rw [if_neg (by simp [hc])]
  show (match splitKeep X with
    | [] => [[c]]
    | l :: ls => (c :: l) :: ls) = (c :: l) :: ls
  rw [hX]

theorem splitKeep_breakFree (w : List Char) (hw : ∀ c ∈ w, isBreak c = false)
    (hne : w ≠ []) : splitKeep w = [w] := by
  induction w with
  | nil => cases hne rfl
  | cons a w2 ih =>
    cases w2 with
    | nil => exact splitKeep_single a
    | cons b w3 =>
      rw [splitKeep_cons_nonbreak a (b :: w3) (b :: w3) [] (hw a (by simp))
        (ih (fun c hc => hw c (by simp [hc])) (by simp))]

theorem splitKeep_prepend_breakFree (w X : List Char) (l : List Char)
    (ls : List (List Char)) (hw : ∀ c ∈ w, isBreak c = false)
    (hX : splitKeep X = l :: ls) : splitKeep (w ++ X) = (w ++ l) :: ls := by
  induction w with
  | nil => simpa using hX
  | cons a w2 ih =>
    have h2 := ih (fun c hc => hw c (by simp [hc]))
    rw [List.cons_append, splitKeep_cons_nonbreak a (w2 ++ X) (w2 ++ l) ls
      (hw a (by simp)) h2, List.cons_append]

theorem splitKeep_append_newline (X Y : List Char) :
    splitKeep (X ++ '\n' :: Y) = splitKeep (X ++ ['\n']) ++ splitKeep Y := by
  induction X using splitKeep.induct with
  | case1 =>
    simp only [List.nil_append]
    rw [splitKeep_cons_break '\n' Y (by decide)
      (by rintro ⟨h, -⟩; exact absurd h (by decide)), splitKeep_single]
    rfl
  | case2 d hd =>
    by_cases hdr : d = '\r'
    · subst hdr
      show splitKeep ('\r' :: '\n' :: Y) = splitKeep ['\r', '\n'] ++ splitKeep Y
      rw [splitKeep_crlf, splitKeep_crlf, splitKeep_nil]
      rfl
    · show splitKeep (d :: '\n' :: Y) = splitKeep (d :: ['\n']) ++ splitKeep Y
      rw [splitKeep_cons_break d ('\n' :: Y) hd (fun h => hdr h.1),
        splitKeep_cons_break '\n' Y (by decide)
          (by rintro ⟨h, -⟩; exact absurd h (by decide)),
        splitKeep_cons_break d ['\n'] hd (fun h => hdr h.1),
        splitKeep_single]
      rfl
  | case3 d hd d1 tl2 hcd ih =>
    obtain ⟨h1, h2⟩ := hcd
    subst h1; subst h2
    show splitKeep ('\r' :: '\n' :: (tl2 ++ '\n' :: Y)) =
      splitKeep ('\r' :: '\n' :: (tl2 ++ ['\n'])) ++ splitKeep Y
    rw [splitKeep_crlf, splitKeep_crlf, ih]
    rfl
  | case4 d hd d1 tl2 hcd ih =>
    have hne : ¬ (d = '\r' ∧ ((d1 :: tl2) ++ '\n' :: Y).head? = some '\n') := by
      rintro ⟨hr, hh⟩
      exact hcd ⟨hr, by simpa using hh⟩
    have hne2 : ¬ (d = '\r' ∧ ((d1 :: tl2) ++ ['\n']).head? = some '\n') := by
      rintro ⟨hr, hh⟩
      exact hcd ⟨hr, by simpa using hh⟩
    show splitKeep (d :: ((d1 :: tl2) ++ '\n' :: Y)) =
      splitKeep (d :: ((d1 :: tl2) ++ ['\n'])) ++ splitKeep Y
    rw [splitKeep_cons_break d _ hd hne, splitKeep_cons_break d _ hd hne2, ih]
    rfl
  | case5 d tl2 hd hnil ih =>
    have h0 : tl2 = [] := (splitKeep_eq_nil_iff tl2).mp hnil
    subst h0
    have hd' : isBreak d = false := by simpa using hd
    show splitKeep (d :: '\n' :: Y) = splitKeep (d :: ['\n']) ++ splitKeep Y
    rw [splitKeep_cons_nonbreak d ('\n' :: Y) ['\n'] (splitKeep Y) hd'
      (splitKeep_cons_break '\n' Y (by decide)
        (by rintro ⟨h, -⟩; exact absurd h (by decide))),
      splitKeep_cons_nonbreak d ['\n'] ['\n'] [] hd' (splitKeep_single '\n')]
    rfl
  | case6 d tl2 hd l ls hsk ih =>
    have hd' : isBreak d = false := by simpa using hd
    rcases hms : splitKeep (tl2 ++ ['\n']) with _ | ⟨m, ms⟩
    · exact absurd ((splitKeep_eq_nil_iff _).mp hms) (by simp)
    · have hx : splitKeep (tl2 ++ '\n' :: Y) = m :: (ms ++ splitKeep Y) := by
        rw [ih, hms]
        rfl
      show splitKeep (d :: (tl2 ++ '\n' :: Y)) =
        splitKeep (d :: (tl2 ++ ['\n'])) ++ splitKeep Y
      rw [splitKeep_cons_nonbreak d _ m (ms ++ splitKeep Y) hd' hx,
        splitKeep_cons_nonbreak d _ m ms hd' hms]
      rfl

/-! ### Whitespace-only captured output -/

theorem pyRStrip_eq_nil (s : List Char) (h : ∀ c ∈ s, pyIsSpace c = true) :
    pyRStrip s = [] := by
  unfold pyRStrip
  have h2 : s.reverse.dropWhile pyIsSpace = [] := by
    rw [List.dropWhile_eq_nil_iff]
    intro c hc
    exact h c (List.mem_reverse.mp hc)
  rw [h2]
  rfl

/-- C8: a captured stdout that is empty or all whitespace does not make the
operation fail: the formatted block degenerates to the fixed label text
followed by two extra newlines — as lines: a blank line, the label line, and
then only blank lines, none of them indented — and the splice still happens. -/
theorem C8_whitespace_output_still_writes (stdout data : List Char) (b e : Nat)
    (hws : ∀ c ∈ stdout, pyIsSpace c = true)
    (hb : firstOccFrom data helpBeginText 0 b)
    (he : firstOccFrom data helpEndText b e) :
    formatHelp stdout = "\nOutput of ``nirw-search --help``::\n\n\n\n".data ∧
    pySplitLines (formatHelp stdout) =
      [[], "Output of ``nirw-search --help``::".data, [], [], []] ∧
    syncHelpBlock stdout data =
      .written (data.take (b + 19) ++
        "\nOutput of ``nirw-search --help``::\n\n\n\n".data ++ data.drop e) := by
  have h0 : formatHelp stdout = "\nOutput of ``nirw-search --help``::\n\n\n\n".data := by
    unfold formatHelp
    rw [pyRStrip_eq_nil stdout hws]
    decide
  refine ⟨h0, by rw [h0]; decide, ?_⟩
  rw [sync_eq_written stdout data b e hb he, h0]

/-- C8 witness: a whitespace-only stdout on the concrete document. -/
theorem C8_witness :
    (∀ c ∈ (" \t\n ".data), pyIsSpace c = true) ∧
    formatHelp " \t\n ".data = "\nOutput of ``nirw-search --help``::\n\n\n\n".data ∧
    syncHelpBlock " \t\n ".data
        "intro\n.. BEGIN HELP TEXT\nOLD\n.. END HELP TEXT\nrest\n".data =
      .written ("intro\n.. BEGIN HELP TEXT\nOLD\n.. END HELP TEXT\nrest\n".data.take (6 + 19) ++
        "\nOutput of ``nirw-search --help``::\n\n\n\n".data ++
        "intro\n.. BEGIN HELP TEXT\nOLD\n.. END HELP TEXT\nrest\n".data.drop 29) := by
  have h := C8_whitespace_output_still_writes " \t\n ".data
    "intro\n.. BEGIN HELP TEXT\nOLD\n.. END HELP TEXT\nrest\n".data 6 29
    (by decide) (by decide) (by decide)
  exact ⟨by decide, h.1, h.2.2⟩

/-! ### The formatted block, as the spec describes it -/

/-- Spec-side formalisation (claim C5): indent a block by three spaces.
Indenting a block leaves lines that consist only of whitespace unchanged, as
in the spec's concrete scenario, where the blank line inside the help output
stays blank. -/
def specIndentThree (out : List Char) : List Char :=
  ((splitKeep out).map (fun l => if l.all pyIsSpace then l else "   ".data ++ l)).flatten

/-- Spec-side formalisation (claim C5) of the block construction: take the
decoded captured stdout, strip trailing whitespace, append exactly two
newline characters, indent the result by three spaces, and prepend the fixed
introductory label text followed by a blank line. -/
def specFormattedBlock (decoded : List Char) : List Char :=
  "\nOutput of ``nirw-search --help``::".data ++ ['\n', '\n'] ++
    specIndentThree (pyRStrip decoded ++ ['\n', '\n'])

theorem textwrapIndent_eq_specIndentThree (t : List Char) :
    textwrapIndent t threeSpaces = specIndentThree t := by
  unfold textwrapIndent specIndentThree
  congr 1
  apply List.map_congr_left
  intro l hl
  by_cases hall : l.all pyIsSpace = true
  · have hc : hasContent l = false := by
      unfold hasContent
      rw [List.any_eq_false]
      intro c hcmem
      simp [List.all_eq_true.mp hall c hcmem]
    rw [if_neg (by simp [hc]), if_pos hall]
  · have hex : ∃ c ∈ l, pyIsSpace c = false := by
      by_contra hcon
      push_neg at hcon
      have hat : l.all pyIsSpace = true := by
        rw [List.all_eq_true]
        intro x hx
        simpa using hcon x hx
      exact hall hat
    have hc : hasContent l = true := by
      unfold hasContent
      rw [List.any_eq_true]
      obtain ⟨c, hcmem, hcs⟩ := hex
      exact ⟨c, hcmem, by simp [hcs]⟩
    rw [if_pos (by simp [hc] : hasContent l = true), if_neg hall]
    rfl

/-- C5: the FormattedBlock is built from the captured stdout by decoding
(abstracted into the model's input), stripping trailing whitespace, appending
exactly two newline characters, indenting the result by three spaces (the
block indent leaves whitespace-only lines unindented), and prepending the
fixed introductory label text followed by a blank line. -/
theorem C5_formatted_block_pipeline (stdout : List Char) :
    formatHelp stdout = specFormattedBlock stdout := by
  unfold formatHelp specFormattedBlock
  rw [textwrapIndent_eq_specIndentThree,
    (by decide : helpLabel = "\nOutput of ``nirw-search --help``::".data ++ ['\n', '\n'])]

/-- Appending one newline to a text whose last character is not a line break
extends the last line of the split instead of adding a line. -/
theorem splitKeep_concat_newline (X : List Char) (hne : X ≠ [])
    (hlast : ∀ c, X.getLast? = some c → isBreak c = false) :
    ∃ L lst, splitKeep X = L ++ [lst] ∧
      splitKeep (X ++ ['\n']) = L ++ [lst ++ ['\n']] := by
  induction X using splitKeep.induct with
  | case1 => cases hne rfl
  | case2 d hd =>
    have := hlast d rfl
    rw [this] at hd
    cases hd
  | case3 d hd d1 tl2 hcd ih =>
    obtain ⟨h1, h2⟩ := hcd
    subst h1; subst h2
    cases tl2 with
    | nil =>
      have := hlast '\n' rfl
      rw [show isBreak '\n' = true from by decide] at this
      cases this
    | cons x xs =>
      obtain ⟨L, lst, hs1, hs2⟩ := ih (by simp)
        (fun c hc => hlast c (by rwa [List.getLast?_cons_cons, List.getLast?_cons_cons]))
      refine ⟨['\r', '\n'] :: L, lst, ?_, ?_⟩
      · rw [splitKeep_crlf, hs1, List.cons_append]
      · show splitKeep ('\r' :: '\n' :: ((x :: xs) ++ ['\n'])) = _
        rw [splitKeep_crlf, hs2, List.cons_append]
  | case4 d hd d1 tl2 hcd ih =>
    obtain ⟨L, lst, hs1, hs2⟩ := ih (by simp)
      (fun c hc => hlast c (by rwa [List.getLast?_cons_cons]))
    refine ⟨[d] :: L, lst, ?_, ?_⟩
    · rw [splitKeep_cons_break d (d1 :: tl2) hd
        (fun h => hcd ⟨h.1, by simpa using h.2⟩), hs1, List.cons_append]
    · show splitKeep (d :: ((d1 :: tl2) ++ ['\n'])) = _
      rw [splitKeep_cons_break d ((d1 :: tl2) ++ ['\n']) hd
        (fun h => hcd ⟨h.1, by simpa using h.2⟩), hs2, List.cons_append]
  | case5 d tl2 hd hnil ih =>
    have h0 : tl2 = [] := (splitKeep_eq_nil_iff tl2).mp hnil
    subst h0
    have hd' : isBreak d = false := by simpa using hd
    refine ⟨[], [d], splitKeep_single d, ?_⟩
    show splitKeep (d :: ['\n']) = [[d] ++ ['\n']]
    rw [splitKeep_cons_nonbreak d ['\n'] ['\n'] [] hd' (splitKeep_single '\n')]
    rfl
  | case6 d tl2 hd l ls hsk ih =>
    have hd' : isBreak d = false := by simpa using hd
    have htl2 : tl2 ≠ [] := by
      intro h
      rw [h, splitKeep_nil] at hsk
      cases hsk
    have hlast2 : ∀ c, tl2.getLast? = some c → isBreak c = false := by
      intro c hc
      apply hlast
      cases tl2 with
      | nil => cases htl2 rfl
      | cons t0 ts => rwa [List.getLast?_cons_cons]
    obtain ⟨L, lst, hs1, hs2⟩ := ih htl2 hlast2
    cases L with
    | nil =>
      have hlst : splitKeep tl2 = [lst] := by simpa using hs1
      have hlst2 : splitKeep (tl2 ++ ['\n']) = [lst ++ ['\n']] := by simpa using hs2
      refine ⟨[], d :: lst, ?_, ?_⟩
      · rw [splitKeep_cons_nonbreak d tl2 lst [] hd' hlst]
        rfl
      · show splitKeep (d :: (tl2 ++ ['\n'])) = [(d :: lst) ++ ['\n']]
        rw [splitKeep_cons_nonbreak d (tl2 ++ ['\n']) (lst ++ ['\n']) [] hd' hlst2]
        rfl
    | cons l0 L2 =>
      have hlst : splitKeep tl2 = l0 :: (L2 ++ [lst]) := by simpa using hs1
      have hlst2 : splitKeep (tl2 ++ ['\n']) = l0 :: (L2 ++ [lst ++ ['\n']]) := by
        simpa using hs2
      refine ⟨(d :: l0) :: L2, lst, ?_, ?_⟩
      · rw [splitKeep_cons_nonbreak d tl2 l0 (L2 ++ [lst]) hd' hlst, List.cons_append]
      · show splitKeep (d :: (tl2 ++ ['\n'])) = _
        rw [splitKeep_cons_nonbreak d (tl2 ++ ['\n']) l0 (L2 ++ [lst ++ ['\n']]) hd' hlst2,
          List.cons_append]

/-! ### Re-splitting the indented block -/

theorem threeSpaces_breakFree : ∀ c ∈ threeSpaces, isBreak c = false := by decide

theorem indent_head (x : Char) (X : List Char) :
    ∃ y r, textwrapIndent (x :: X) threeSpaces = y :: r ∧ (y = ' ' ∨ y = x) := by
  obtain ⟨r0, t0, hs⟩ := splitKeep_cons_shape x X
  unfold textwrapIndent
  rw [hs, List.map_cons, List.flatten_cons]
  by_cases hc : hasContent (x :: r0) = true
  · rw [if_pos hc, (by decide : threeSpaces = ' ' :: ' ' :: ' ' :: [])]
    exact ⟨' ', _, rfl, Or.inl rfl⟩
  · rw [if_neg hc]
    exact ⟨x, _, rfl, Or.inr rfl⟩

theorem indent_head_ne_newline (x : Char) (X : List Char) (hx : x ≠ '\n') :
    ¬ ((textwrapIndent (x :: X) threeSpaces).head? = some '\n') := by
  obtain ⟨y, r, he, hy⟩ := indent_head x X
  rw [he]
  simp only [List.head?_cons]
  intro hcon
  injection hcon with hcon
  rcases hy with h1 | h1
  · rw [h1] at hcon
    exact absurd hcon (by decide)
  · rw [h1] at hcon
    exact hx hcon

theorem splitKeep_indent (t : List Char) :
    splitKeep (textwrapIndent t threeSpaces) =
      (splitKeep t).map (fun l => if hasContent l then threeSpaces ++ l else l) := by
  induction t using splitKeep.induct with
  | case1 => rfl
  | case2 d hd =>
    have hf : ¬ (hasContent [d] = true) := by
      simp [hasContent_single_break d hd]
    unfold textwrapIndent
    simp only [splitKeep_single, List.map_cons, List.map_nil, List.flatten_cons,
      List.flatten_nil, List.append_nil, if_neg hf]
  | case3 d hd d1 tl2 hcd ih =>
    obtain ⟨h1, h2⟩ := hcd
    subst h1; subst h2
    have hf : ¬ (hasContent ['\r', '\n'] = true) := by decide
    unfold textwrapIndent at ih ⊢
    simp only [splitKeep_crlf, List.map_cons, List.flatten_cons, if_neg hf,
      List.cons_append, List.nil_append]
    rw [ih]
  | case4 d hd d1 tl2 hcd ih =>
    have hf : ¬ (hasContent [d] = true) := by
      simp [hasContent_single_break d hd]
    have hsb := splitKeep_cons_break d (d1 :: tl2) hd
      (fun h => hcd ⟨h.1, by simpa using h.2⟩)
    have hhead := indent_head_ne_newline d1 tl2
    unfold textwrapIndent at ih hhead ⊢
    simp only [hsb, List.map_cons, List.flatten_cons, if_neg hf,
      List.cons_append, List.nil_append]
    rw [splitKeep_cons_break d _ hd
      (fun h => hhead (fun h1 => hcd ⟨h.1, h1⟩) h.2), ih]
  | case5 d tl2 hd hnil ih =>
    have h0 : tl2 = [] := (splitKeep_eq_nil_iff tl2).mp hnil
    subst h0
    have hd' : isBreak d = false := by simpa using hd
    unfold textwrapIndent
    simp only [splitKeep_single, List.map_cons, List.map_nil, List.flatten_cons,
      List.flatten_nil, List.append_nil]
    by_cases hc : hasContent [d] = true
    · rw [if_pos hc]
      rw [splitKeep_breakFree (threeSpaces ++ [d])
        (by
          intro c hcmem
          rcases List.mem_append.mp hcmem with hm | hm
          · exact threeSpaces_breakFree c hm
          · rw [List.mem_singleton.mp hm]
            exact hd')
        (by simp)]
    · rw [if_neg hc, splitKeep_single]
  | case6 d tl2 hd l ls hsk ih =>
    have hd' : isBreak d = false := by simpa using hd
    have htl2 : tl2 ≠ [] := by
      intro h
      rw [h, splitKeep_nil] at hsk
      cases hsk
    have hlne : l ≠ [] := by
      cases tl2 with
      | nil => cases htl2 rfl
      | cons t0 ts =>
        obtain ⟨r0, t0', hs⟩ := splitKeep_cons_shape t0 ts
        rw [hsk] at hs
        injection hs with hs1 hs2
        rw [hs1]
        simp
    unfold textwrapIndent at ih ⊢
    rw [splitKeep_cons_nonbreak d tl2 l ls hd' hsk]
    rw [hsk] at ih
    simp only [List.map_cons, List.flatten_cons] at ih ⊢
    have hstar : splitKeep (l ++
        ((ls.map (fun x => if hasContent x then threeSpaces ++ x else x)).flatten)) =
        l :: ls.map (fun x => if hasContent x then threeSpaces ++ x else x) := by
      by_cases hcl : hasContent l = true
      · rw [if_pos hcl, List.append_assoc] at ih
        rcases hlJ : splitKeep (l ++
            (ls.map (fun x => if hasContent x then threeSpaces ++ x else x)).flatten)
          with _ | ⟨m, ms⟩
        · exfalso
          have := (splitKeep_eq_nil_iff _).mp hlJ
          exact hlne (List.append_eq_nil.mp this).1
        · have hp := splitKeep_prepend_breakFree threeSpaces _ m ms
            threeSpaces_breakFree hlJ
          rw [hp] at ih
          injection ih with ih1 ih2
          have hm : m = l := List.append_cancel_left ih1
          subst hm
          subst ih2
          simp
      · rw [if_neg hcl] at ih
        exact ih
    by_cases hcdl : hasContent (d :: l) = true
    · rw [if_pos hcdl, List.append_assoc, List.cons_append]
      exact splitKeep_prepend_breakFree threeSpaces _ (d :: l) _
        threeSpaces_breakFree
        (splitKeep_cons_nonbreak d _ l _ hd' hstar)
    · rw [if_neg hcdl, List.cons_append]
      exact splitKeep_cons_nonbreak d _ l _ hd' hstar

/-! ### Trailing structure of the stripped output and of split lines -/

theorem pyRStrip_last_not_space (s : List Char) (c : Char)
    (h : (pyRStrip s).getLast? = some c) : pyIsSpace c = false := by
  unfold pyRStrip at h
  rw [List.getLast?_reverse] at h
  have h2 := List.head?_dropWhile_not pyIsSpace s.reverse
  rw [h] at h2
  exact h2

theorem pyRStrip_last_not_break (s : List Char) (c : Char)
    (h : (pyRStrip s).getLast? = some c) : isBreak c = false := by
  by_contra hc
  rw [Bool.not_eq_false] at hc
  have h2 := pyRStrip_last_not_space s c h
  rw [isBreak_isSpace c hc] at h2
  cases h2

theorem dropLineEnd_nil : dropLineEnd [] = [] := rfl

theorem dropLineEnd_of_last_nonbreak (l : List Char)
    (h : ∀ c, l.getLast? = some c → isBreak c = false) : dropLineEnd l = l := by
  rcases hrev : l.reverse with _ | ⟨c, r⟩
  · have hl : l = [] := by simpa using congrArg List.reverse hrev
    rw [hl]
    rfl
  · have hlast : l.getLast? = some c := by
      rw [← List.head?_reverse, hrev]
      rfl
    have hcb : isBreak c = false := h c hlast
    have hcn : ¬ (c = '\n') := by
      intro hh
      rw [hh] at hcb
      exact absurd hcb (by decide)
    unfold dropLineEnd
    rw [hrev]
    simp [hcn, hcb]

theorem dropLineEnd_concat_newline (l : List Char)
    (h : ∀ c, l.getLast? = some c → ¬ (c = '\r')) :
    dropLineEnd (l ++ ['\n']) = l := by
  have hrev : (l ++ ['\n']).reverse = '\n' :: l.reverse := by simp
  unfold dropLineEnd
  rw [hrev]
  rcases hrl : l.reverse with _ | ⟨d, r2⟩
  · have hl : l = [] := by simpa using congrArg List.reverse hrl
    simp [hl]
  · have hlast : l.getLast? = some d := by
      rw [← List.head?_reverse, hrl]
      rfl
    have hd : ¬ (d = '\r') := h d hlast
    have hrr : r2.reverse ++ [d] = l := by
      have := congrArg List.reverse hrl
      simpa using this.symm
    simp [hd]
    exact hrr

theorem splitKeep_flatten (X : List Char) : (splitKeep X).flatten = X := by
  induction X using splitKeep.induct with
  | case1 => rfl
  | case2 d hd => rw [splitKeep_single]; rfl
  | case3 d hd d1 tl2 hcd ih =>
    obtain ⟨h1, h2⟩ := hcd
    subst h1; subst h2
    rw [splitKeep_crlf, List.flatten_cons, ih]
    rfl
  | case4 d hd d1 tl2 hcd ih =>
    rw [splitKeep_cons_break d (d1 :: tl2) hd
      (fun h => hcd ⟨h.1, by simpa using h.2⟩), List.flatten_cons, ih]
    rfl
  | case5 d tl2 hd hnil ih =>
    have h0 : tl2 = [] := (splitKeep_eq_nil_iff tl2).mp hnil
    subst h0
    rw [splitKeep_single]
    rfl
  | case6 d tl2 hd l ls hsk ih =>
    have hd' : isBreak d = false := by simpa using hd
    rw [splitKeep_cons_nonbreak d tl2 l ls hd' hsk, List.flatten_cons]
    rw [hsk, List.flatten_cons] at ih
    rw [List.cons_append, ih]

theorem lines_ne_nil (X : List Char) : ∀ raw ∈ splitKeep X, raw ≠ [] := by
  induction X using splitKeep.induct with
  | case1 => intro raw h; cases h
  | case2 d hd =>
    intro raw h
    rw [splitKeep_single] at h
    rcases List.mem_singleton.mp h with rfl
    simp
  | case3 d hd d1 tl2 hcd ih =>
    obtain ⟨h1, h2⟩ := hcd
    subst h1; subst h2
    intro raw h
    rw [splitKeep_crlf] at h
    rcases List.mem_cons.mp h with rfl | hmem
    · simp
    · exact ih raw hmem
  | case4 d hd d1 tl2 hcd ih =>
    intro raw h
    rw [splitKeep_cons_break d (d1 :: tl2) hd
      (fun hh => hcd ⟨hh.1, by simpa using hh.2⟩)] at h
    rcases List.mem_cons.mp h with rfl | hmem
    · simp
    · exact ih raw hmem
  | case5 d tl2 hd hnil ih =>
    have h0 : tl2 = [] := (splitKeep_eq_nil_iff tl2).mp hnil
    subst h0
    intro raw h
    rw [splitKeep_single] at h
    rcases List.mem_singleton.mp h with rfl
    simp
  | case6 d tl2 hd l ls hsk ih =>
    have hd' : isBreak d = false := by simpa using hd
    intro raw h
    rw [splitKeep_cons_nonbreak d tl2 l ls hd' hsk] at h
    rcases List.mem_cons.mp h with rfl | hmem
    · simp
    · exact ih raw (by rw [hsk]; exact List.mem_cons_of_mem l hmem)

theorem splitKeep_last_line (X : List Char) (L : List (List Char)) (lst : List Char)
    (h : splitKeep X = L ++ [lst]) : lst ≠ [] ∧ lst.getLast? = X.getLast? := by
  have hmem : lst ∈ splitKeep X := by
    rw [h]
    simp
  have h1 : lst ≠ [] := lines_ne_nil X lst hmem
  refine ⟨h1, ?_⟩
  have h2 := splitKeep_flatten X
  rw [h] at h2
  rw [← h2, List.flatten_append]
  simp only [List.flatten_cons, List.flatten_nil, List.append_nil]
  exact (List.getLast?_append_of_ne_nil _ h1).symm ▸ rfl

theorem hasContent_append (a b : List Char) :
    hasContent (a ++ b) = (hasContent a || hasContent b) := by
  simp [hasContent, List.any_append]

theorem hasContent_breaks_false (term : List Char) (h : ∀ c ∈ term, isBreak c = true) :
    hasContent term = false := by
  unfold hasContent
  rw [List.any_eq_false]
  intro c hc
  simp [isBreak_isSpace c (h c hc)]

theorem dropLineEnd_shape (l : List Char) :
    ∃ term, l = dropLineEnd l ++ term ∧ ∀ c ∈ term, isBreak c = true := by
  rcases hrev : l.reverse with _ | ⟨c, r⟩
  · have hl : l = [] := by simpa using congrArg List.reverse hrev
    exact ⟨[], by simp [hl, dropLineEnd_nil], by simp⟩
  · have hl : l = r.reverse ++ [c] := by
      have h2 := congrArg List.reverse hrev
      simp at h2
      exact h2
    by_cases hcn : c = '\n'
    · subst hcn
      rcases r with _ | ⟨d, r2⟩
      · have hd : dropLineEnd l = [] := by
          unfold dropLineEnd
          rw [hrev]
          rfl
        refine ⟨['\n'], ?_, by decide⟩
        rw [hd]
        simpa using hl
      · by_cases hdr : d = '\r'
        · subst hdr
          have hd : dropLineEnd l = r2.reverse := by
            unfold dropLineEnd
            rw [hrev]
            simp
          refine ⟨['\r', '\n'], ?_, by decide⟩
          rw [hd]
          simpa using hl
        · have hd : dropLineEnd l = (d :: r2).reverse := by
            unfold dropLineEnd
            rw [hrev]
            simp [hdr]
          refine ⟨['\n'], ?_, by decide⟩
          rw [hd]
          simpa using hl
    · by_cases hcb : isBreak c = true
      · have hd : dropLineEnd l = r.reverse := by
          unfold dropLineEnd
          rw [hrev]
          simp [hcn, hcb]
        refine ⟨[c], ?_, by simp [hcb]⟩
        rw [hd]
        exact hl
      · have hd : dropLineEnd l = l := by
          unfold dropLineEnd
          rw [hrev]
          simp [hcn, hcb]
        exact ⟨[], by simp [hd], by simp⟩

theorem hasContent_dropLineEnd (l : List Char) :
    hasContent (dropLineEnd l) = hasContent l := by
  obtain ⟨term, hterm, hbr⟩ := dropLineEnd_shape l
  conv_rhs => rw [hterm]
  rw [hasContent_append, hasContent_breaks_false term hbr, Bool.or_false]

theorem dropLineEnd_prepend (w raw : List Char) (hw : ∀ c ∈ w, isBreak c = false)
    (hne : raw ≠ []) : dropLineEnd (w ++ raw) = w ++ dropLineEnd raw := by
  rcases hrev : raw.reverse with _ | ⟨c, r⟩
  · exact absurd (by simpa using congrArg List.reverse hrev) hne
  · have hwr : (w ++ raw).reverse = c :: (r ++ w.reverse) := by
      rw [List.reverse_append, hrev]
      rfl
    by_cases hcn : c = '\n'
    · subst hcn
      rcases r with _ | ⟨d, r2⟩
      · have hraw : dropLineEnd raw = [] := by
          unfold dropLineEnd
          rw [hrev]
          rfl
        rcases hwrev : w.reverse with _ | ⟨e, w2⟩
        · have hwnil : w = [] := by simpa using congrArg List.reverse hwrev
          rw [hwnil]
          simp only [List.nil_append]
        · have hlast : w.getLast? = some e := by
            rw [← List.head?_reverse, hwrev]
            rfl
          have he : isBreak e = false := hw e (List.mem_of_mem_getLast? hlast)
          have her : ¬ (e = '\r') := by
            intro hh
            rw [hh] at he
            exact absurd he (by decide)
          have hweq : w2.reverse ++ [e] = w := by
            simpa using (congrArg List.reverse hwrev).symm
          have hres : dropLineEnd (w ++ raw) = w := by
            unfold dropLineEnd
            rw [hwr, List.nil_append, hwrev]
            simp [her]
            exact hweq
          rw [hres, hraw, List.append_nil]
      · by_cases hdr : d = '\r'
        · subst hdr
          have hraw : dropLineEnd raw = r2.reverse := by
            unfold dropLineEnd
            rw [hrev]
            simp
          have hres : dropLineEnd (w ++ raw) = w ++ r2.reverse := by
            unfold dropLineEnd
            rw [hwr]
            simp
          rw [hres, hraw]
        · have hraw : dropLineEnd raw = (d :: r2).reverse := by
            unfold dropLineEnd
            rw [hrev]
            simp [hdr]
          have hres : dropLineEnd (w ++ raw) = w ++ (d :: r2).reverse := by
            unfold dropLineEnd
            rw [hwr]
            simp [hdr]
          rw [hres, hraw]
    · by_cases hcb : isBreak c = true
      · have hraw : dropLineEnd raw = r.reverse := by
          unfold dropLineEnd
          rw [hrev]
          simp [hcn, hcb]
        have hres : dropLineEnd (w ++ raw) = w ++ r.reverse := by
          unfold dropLineEnd
          rw [hwr]
          simp [hcn, hcb]
        rw [hres, hraw]
      · have hraw : dropLineEnd raw = raw := by
          unfold dropLineEnd
          rw [hrev]
          simp [hcn, hcb]
        have hres : dropLineEnd (w ++ raw) = w ++ raw := by
          unfold dropLineEnd
          rw [hwr]
          simp [hcn, hcb]
        rw [hres, hraw]

/-! ### Line decomposition of an updated document -/

theorem hasContent_newline_false : hasContent ['\n'] = false := by decide

theorem splitKeep_spliced (P S stdout : List Char) :
    splitKeep ((P ++ formatHelp stdout) ++ S) =
      splitKeep (P ++ ['\n']) ++
        (("Output of ``nirw-search --help``::".data ++ ['\n']) ::
          ['\n'] ::
          (((splitKeep (pyRStrip stdout ++ ['\n'])).map
            (fun l => if hasContent l then threeSpaces ++ l else l)) ++
            (['\n'] :: splitKeep S))) := by
  have hlabel : helpLabel =
      '\n' :: ("Output of ``nirw-search --help``::".data ++ ['\n', '\n']) := by decide
  have hbody : splitKeep (pyRStrip stdout ++ ['\n', '\n']) =
      splitKeep (pyRStrip stdout ++ ['\n']) ++ [['\n']] := by
    have hB := splitKeep_append_newline (pyRStrip stdout) ['\n']
    rw [splitKeep_single] at hB
    exact hB
  have hindent : textwrapIndent (pyRStrip stdout ++ ['\n', '\n']) threeSpaces =
      ((splitKeep (pyRStrip stdout ++ ['\n'])).map
        (fun l => if hasContent l then threeSpaces ++ l else l)).flatten ++ ['\n'] := by
    unfold textwrapIndent
    rw [hbody, List.map_append, List.flatten_append]
    simp only [List.map_cons, List.map_nil, List.flatten_cons, List.flatten_nil,
      List.append_nil, if_neg (by decide : ¬ (hasContent ['\n'] = true))]
  have hsplitV : splitKeep (((splitKeep (pyRStrip stdout ++ ['\n'])).map
        (fun l => if hasContent l then threeSpaces ++ l else l)).flatten ++ ['\n']) =
      (splitKeep (pyRStrip stdout ++ ['\n'])).map
        (fun l => if hasContent l then threeSpaces ++ l else l) ++ [['\n']] := by
    rw [← hindent, splitKeep_indent, hbody, List.map_append]
    simp only [List.map_cons, List.map_nil,
      if_neg (by decide : ¬ (hasContent ['\n'] = true))]
  have hEq1 : (P ++ formatHelp stdout) ++ S =
      P ++ '\n' :: ("Output of ``nirw-search --help``::".data ++
        '\n' :: '\n' :: ((((splitKeep (pyRStrip stdout ++ ['\n'])).map
          (fun l => if hasContent l then threeSpaces ++ l else l)).flatten) ++
          '\n' :: S)) := by
    unfold formatHelp
    rw [hlabel, hindent]
    simp [List.append_assoc]
  rw [hEq1, splitKeep_append_newline]
  congr 1
  rw [splitKeep_append_newline ("Output of ``nirw-search --help``::".data)
    ('\n' :: (_ ++ '\n' :: S))]
  rw [(by decide : splitKeep ("Output of ``nirw-search --help``::".data ++ ['\n']) =
    [("Output of ``nirw-search --help``::".data ++ ['\n'])])]
  rw [splitKeep_cons_break '\n' _ (by decide)
    (by rintro ⟨hh, -⟩; exact absurd hh (by decide))]
  rw [splitKeep_append_newline _ S, hsplitV]
  simp

/-- C4 counterexample: for captured output `"a\n\nb"` the blank line is one of
the lines of the help output, the operation proceeds and rewrites the
document, yet the blank line prefixed with exactly three spaces (`"   "`) is
not a line of the updated document: `textwrap.indent`'s default predicate
leaves whitespace-only lines unindented. -/
theorem C4_counterexample :
    ([] : List Char) ∈ pySplitLines ("a\n\nb".data) ∧
    syncHelpBlock "a\n\nb".data
        "p\n.. BEGIN HELP TEXT\nq\n.. END HELP TEXT\nr\n".data =
      .written "p\n.. BEGIN HELP TEXT\n\nOutput of ``nirw-search --help``::\n\n   a\n\n   b\n\n.. END HELP TEXT\nr\n".data ∧
    ¬ (("   ".data) ∈ pySplitLines
      "p\n.. BEGIN HELP TEXT\n\nOutput of ``nirw-search --help``::\n\n   a\n\n   b\n\n.. END HELP TEXT\nr\n".data) :=
  ⟨by decide, by decide, by decide⟩

/-- C4 (amended): in every successful run, every line of the captured help
output — taken after the output's trailing whitespace is stripped — appears
in the updated document as a line: prefixed with exactly three space
characters if it contains a non-whitespace character, and unchanged (with no
indentation added) if it is whitespace-only; the introductory label line
appears as a line with no indentation. -/
theorem C4_indentation_contract (stdout data u : List Char)
    (h : syncHelpBlock stdout data = .written u) :
    (∀ l ∈ pySplitLines (pyRStrip stdout),
      (if hasContent l then threeSpaces ++ l else l) ∈ pySplitLines u) ∧
    "Output of ``nirw-search --help``::".data ∈ pySplitLines u := by
  obtain ⟨b, e, hb, he, hu⟩ := sync_written_inv stdout data u h
  subst hu
  unfold pySplitLines
  rw [splitKeep_spliced]
  constructor
  · intro l hl
    obtain ⟨raw, hrawmem0, hrawl⟩ := List.mem_map.mp hl
    have hrne : pyRStrip stdout ≠ [] := by
      intro hh
      rw [hh, splitKeep_nil] at hrawmem0
      cases hrawmem0
    have hrawne : raw ≠ [] := lines_ne_nil _ raw hrawmem0
    obtain ⟨L, lst, hE1, hE2⟩ := splitKeep_concat_newline (pyRStrip stdout) hrne
      (fun c hc => pyRStrip_last_not_break stdout c hc)
    have hrawmem : raw ∈ L ++ [lst] := by rw [← hE1]; exact hrawmem0
    rcases List.mem_append.mp hrawmem with hmemL | hmemLst
    · have hmem2 : raw ∈ splitKeep (pyRStrip stdout ++ ['\n']) := by
        rw [hE2]
        exact List.mem_append_left _ hmemL
      have hcq : hasContent raw = hasContent l := by
        rw [← hrawl, hasContent_dropLineEnd]
      refine List.mem_map.mpr
        ⟨(if hasContent raw then threeSpaces ++ raw else raw), ?_, ?_⟩
      · apply List.mem_append_right
        apply List.mem_cons_of_mem
        apply List.mem_cons_of_mem
        apply List.mem_append_left
        exact List.mem_map.mpr ⟨raw, hmem2, rfl⟩
      · by_cases hc : hasContent raw = true
        · rw [if_pos hc, if_pos (show hasContent l = true from hcq ▸ hc),
            dropLineEnd_prepend threeSpaces raw threeSpaces_breakFree hrawne, hrawl]
        · have hc' : hasContent raw = false := by simpa using hc
          rw [if_neg hc, if_neg (show ¬ (hasContent l = true) from by
            rw [← hcq]; exact hc)]
          exact hrawl
    · have hrawlst : raw = lst := List.mem_singleton.mp hmemLst
      subst hrawlst
      have hmem2 : raw ++ ['\n'] ∈ splitKeep (pyRStrip stdout ++ ['\n']) := by
        rw [hE2]
        exact List.mem_append_right _ (List.mem_singleton.mpr rfl)
      obtain ⟨hlstne, hlstlast⟩ := splitKeep_last_line (pyRStrip stdout) L raw hE1
      have hlastnb : ∀ c, raw.getLast? = some c → isBreak c = false := by
        intro c hc
        rw [hlstlast] at hc
        exact pyRStrip_last_not_break stdout c hc
      have hdl : dropLineEnd raw = raw := dropLineEnd_of_last_nonbreak raw hlastnb
      have hlval : l = raw := by rw [← hrawl, hdl]
      subst hlval
      have hdln : dropLineEnd (l ++ ['\n']) = l := dropLineEnd_concat_newline l
        (fun c hc => by
          have h2 := hlastnb c hc
          intro hh
          rw [hh] at h2
          exact absurd h2 (by decide))
      have hcq : hasContent (l ++ ['\n']) = hasContent l := by
        rw [hasContent_append, hasContent_newline_false, Bool.or_false]
      refine List.mem_map.mpr
        ⟨(if hasContent (l ++ ['\n']) then threeSpaces ++ (l ++ ['\n'])
          else (l ++ ['\n'])), ?_, ?_⟩
      · apply List.mem_append_right
        apply List.mem_cons_of_mem
        apply List.mem_cons_of_mem
        apply List.mem_append_left
        exact List.mem_map.mpr ⟨l ++ ['\n'], hmem2, rfl⟩
      · by_cases hc : hasContent l = true
        · rw [hcq, if_pos hc, if_pos hc,
            dropLineEnd_prepend threeSpaces (l ++ ['\n']) threeSpaces_breakFree
              (by simp), hdln]
        · rw [hcq, if_neg hc, if_neg hc]
          exact hdln
  · refine List.mem_map.mpr
      ⟨"Output of ``nirw-search --help``::".data ++ ['\n'], ?_, by decide⟩
    apply List.mem_append_right
    exact List.mem_cons_self _ _

/-- C4 witness: a successful run whose captured output contains a blank line
and two content lines; the content lines appear indented by three spaces, the
blank line appears unindented, and the label line appears unindented. -/
theorem C4_witness :
    syncHelpBlock "a\n\nb".data
        "p\n.. BEGIN HELP TEXT\nq\n.. END HELP TEXT\nr\n".data =
      .written "p\n.. BEGIN HELP TEXT\n\nOutput of ``nirw-search --help``::\n\n   a\n\n   b\n\n.. END HELP TEXT\nr\n".data ∧
    ((∀ l ∈ pySplitLines (pyRStrip "a\n\nb".data),
      (if hasContent l then threeSpaces ++ l else l) ∈ pySplitLines
        "p\n.. BEGIN HELP TEXT\n\nOutput of ``nirw-search --help``::\n\n   a\n\n   b\n\n.. END HELP TEXT\nr\n".data) ∧
    "Output of ``nirw-search --help``::".data ∈ pySplitLines
      "p\n.. BEGIN HELP TEXT\n\nOutput of ``nirw-search --help``::\n\n   a\n\n   b\n\n.. END HELP TEXT\nr\n".data) :=
  ⟨by decide, C4_indentation_contract "a\n\nb".data
    "p\n.. BEGIN HELP TEXT\nq\n.. END HELP TEXT\nr\n".data
    "p\n.. BEGIN HELP TEXT\n\nOutput of ``nirw-search --help``::\n\n   a\n\n   b\n\n.. END HELP TEXT\nr\n".data
    (by decide)⟩

/-! ### Second-run occurrence analysis -/

theorem getD_take (l : List Char) (n i : Nat) (d : Char) (h : i < n) :
    (l.take n).getD i d = l.getD i d := by
  rw [List.getD_eq_getElem?_getD, List.getD_eq_getElem?_getD,
    List.getElem?_take_of_lt h]

theorem prefix_getD (n m : List Char) (i : Nat) (d : Char)
    (h : n.isPrefixOf m = true) (hi : i < n.length) : m.getD i d = n.getD i d := by
  have h2 := occursAt_getD m n 0 i d (by simpa [occursAt] using h) hi
  simpa using h2

theorem occursAt_append_drop (P R n : List Char) (k : Nat) (h : P.length ≤ k) :
    occursAt (P ++ R) n k = occursAt R n (k - P.length) := by
  unfold occursAt
  rw [List.drop_append_eq_append_drop, List.drop_eq_nil_of_le h, List.nil_append]

theorem concat_drop_getLast (W : List Char) (i : Nat) (h : i ≤ W.length) :
    ((W ++ ['\n']).drop i).getLast? = some '\n' := by
  rw [List.drop_append_of_le_length h]
  simp

theorem textwrapIndent_body (s : List Char) :
    textwrapIndent (pyRStrip s ++ ['\n', '\n']) threeSpaces =
      ((splitKeep (pyRStrip s ++ ['\n'])).map
        (fun l => if hasContent l then threeSpaces ++ l else l)).flatten ++ ['\n'] := by
  have hbody : splitKeep (pyRStrip s ++ ['\n', '\n']) =
      splitKeep (pyRStrip s ++ ['\n']) ++ [['\n']] := by
    have hB := splitKeep_append_newline (pyRStrip s) ['\n']
    rw [splitKeep_single] at hB
    exact hB
  unfold textwrapIndent
  rw [hbody, List.map_append, List.flatten_append]
  simp only [List.map_cons, List.map_nil, List.flatten_cons, List.flatten_nil,
    List.append_nil, if_neg (by decide : ¬ (hasContent ['\n'] = true))]

theorem formatHelp_head (s : List Char) :
    formatHelp s = '\n' :: ("Output of ``nirw-search --help``::\n\n".data ++
      textwrapIndent (pyRStrip s ++ ['\n', '\n']) threeSpaces) := by
  unfold formatHelp
  rw [(by decide : helpLabel = '\n' :: "Output of ``nirw-search --help``::\n\n".data)]
  rfl

theorem formatHelp_concat (s : List Char) :
    ∃ W, formatHelp s = W ++ ['\n'] := by
  refine ⟨helpLabel ++ ((splitKeep (pyRStrip s ++ ['\n'])).map
    (fun l => if hasContent l then threeSpaces ++ l else l)).flatten, ?_⟩
  unfold formatHelp
  rw [textwrapIndent_body, ← List.append_assoc]

theorem getD_append_left (l1 l2 : List Char) (n : Nat) (d : Char)
    (h : n < l1.length) : (l1 ++ l2).getD n d = l1.getD n d := by
  rw [List.getD_eq_getElem?_getD, List.getD_eq_getElem?_getD,
    List.getElem?_append, if_pos h]

/-- In the document produced by a successful run whose formatted block does
not contain the end marker, the first begin-marker occurrence is still at
`b`, and the first end-marker occurrence at or after `b` is exactly at the
start of the preserved suffix. -/
theorem second_run_first_occs (stdout data : List Char) (b e : Nat)
    (hb : firstOccFrom data helpBeginText 0 b)
    (he : firstOccFrom data helpEndText b e)
    (hno : ∀ j, j < (formatHelp stdout).length →
      occursAt (formatHelp stdout) helpEndText j = false) :
    firstOccFrom (data.take (b + 19) ++ formatHelp stdout ++ data.drop e)
      helpBeginText 0 b ∧
    firstOccFrom (data.take (b + 19) ++ formatHelp stdout ++ data.drop e)
      helpEndText b (b + 19 + (formatHelp stdout).length) := by
  obtain ⟨hw1, hw2, hw3⟩ := success_window data b e hb he
  obtain ⟨hb0, hbocc, hbmin⟩ := hb
  obtain ⟨hbe, heocc, hemin⟩ := he
  have hPlen : (data.take (b + 19)).length = b + 19 := by
    rw [List.length_take]
    omega
  have hassoc : (data.take (b + 19) ++ formatHelp stdout) ++ data.drop e =
      data.take (b + 19) ++ (formatHelp stdout ++ data.drop e) :=
    List.append_assoc _ _ _
  obtain ⟨W, hHW⟩ := formatHelp_concat stdout
  have hHhead := formatHelp_head stdout
  have hHlen : 0 < (formatHelp stdout).length := by
    rw [hHhead]
    simp
  constructor
  · refine ⟨Nat.zero_le b, ?_, ?_⟩
    · unfold occursAt
      rw [hassoc, List.drop_append_of_le_length (by omega)]
      unfold occursAt at hbocc
      obtain ⟨t, ht⟩ := List.isPrefixOf_iff_prefix.mp hbocc
      have hPdrop : (data.take (b + 19)).drop b = helpBeginText ++ t.take 1 := by
        rw [List.drop_take, (show b + 19 - b = 19 from by omega), ← ht,
          List.take_append_eq_append_take,
          List.take_of_length_le (by rw [length_helpBeginText]; omega),
          length_helpBeginText]
      rw [hPdrop, List.append_assoc, List.isPrefixOf_iff_prefix]
      exact List.prefix_append _ _
    · intro k hk hk0
      by_contra hcon
      rw [Bool.not_eq_false] at hcon
      rw [hassoc] at hcon
      have h1 : occursAt (data.take (b + 19)) helpBeginText k = true := by
        rw [← occursAt_append_left_iff (data.take (b + 19))
          (formatHelp stdout ++ data.drop e) helpBeginText k
          (by rw [length_helpBeginText, hPlen]; omega)]
        exact hcon
      have h2 : occursAt data helpBeginText k = true :=
        occursAt_take data helpBeginText (b + 19) k h1
      have h3 := hbmin k hk (Nat.zero_le k)
      rw [h2] at h3
      cases h3
  · refine ⟨by omega, ?_, ?_⟩
    · have hkey : ((data.take (b + 19) ++ formatHelp stdout) ++ data.drop e).drop
          (b + 19 + (formatHelp stdout).length) = data.drop e := by
        refine drop_append_self _ _ _ ?_
        rw [List.length_append, hPlen]
      unfold occursAt
      rw [hkey]
      exact heocc
    · intro k hk hbk
      by_contra hcon
      rw [Bool.not_eq_false] at hcon
      rw [hassoc] at hcon
      by_cases hcase1 : k + 16 ≤ b + 19
      · have h1 : occursAt (data.take (b + 19)) helpEndText k = true := by
          rw [← occursAt_append_left_iff (data.take (b + 19))
            (formatHelp stdout ++ data.drop e) helpEndText k
            (by rw [length_helpEndText, hPlen]; omega)]
          exact hcon
        have h2 : occursAt data helpEndText k = true :=
          occursAt_take data helpEndText (b + 19) k h1
        have h3 := hemin k (by omega) hbk
        rw [h2] at h3
        cases h3
      · by_cases hcase2 : b + 19 ≤ k
        · have h4 := occursAt_append_drop (data.take (b + 19))
            (formatHelp stdout ++ data.drop e) helpEndText k (by omega)
          rw [hcon, hPlen] at h4
          have hi : occursAt (formatHelp stdout ++ data.drop e) helpEndText
              (k - (b + 19)) = true := h4.symm
          have hilt : k - (b + 19) < (formatHelp stdout).length := by omega
          by_cases hcase3 : (k - (b + 19)) + 16 ≤ (formatHelp stdout).length
          · have h5 : occursAt (formatHelp stdout) helpEndText (k - (b + 19)) = true := by
              rw [← occursAt_append_left_iff (formatHelp stdout) (data.drop e)
                helpEndText (k - (b + 19)) (by rw [length_helpEndText]; omega)]
              exact hi
            have h6 := hno (k - (b + 19)) hilt
            rw [h5] at h6
            cases h6
          · have hpre : helpEndText.isPrefixOf
                ((formatHelp stdout).drop (k - (b + 19)) ++ data.drop e) = true := by
              unfold occursAt at hi
              rw [List.drop_append_of_le_length (by omega)] at hi
              exact hi
            obtain ⟨hXeq, -⟩ := prefix_split helpEndText
              ((formatHelp stdout).drop (k - (b + 19))) (data.drop e) hpre
              (by rw [List.length_drop, length_helpEndText]; omega)
            have hlast : (((formatHelp stdout).drop (k - (b + 19)))).getLast? =
                some '\n' := by
              rw [hHW]
              apply concat_drop_getLast
              have hWlen : (formatHelp stdout).length = W.length + 1 := by
                rw [hHW]
                simp
              omega
            rw [hXeq, List.length_drop] at hlast
            have hdec : ∀ m, 1 ≤ m → m ≤ 15 →
                ¬ ((helpEndText.take m).getLast? = some '\n') := by decide
            exact hdec ((formatHelp stdout).length - (k - (b + 19)))
              (by omega) (by omega) hlast
        · have hpre : helpEndText.isPrefixOf
              ((data.take (b + 19)).drop k ++ (formatHelp stdout ++ data.drop e)) =
                true := by
            unfold occursAt at hcon
            rw [List.drop_append_of_le_length (by omega)] at hcon
            exact hcon
          obtain ⟨hXeq, hrest⟩ := prefix_split helpEndText
            ((data.take (b + 19)).drop k) (formatHelp stdout ++ data.drop e) hpre
            (by rw [List.length_drop, hPlen, length_helpEndText]; omega)
          by_cases hk18 : k = b + 18
          · subst hk18
            have hlen1 : ((data.take (b + 19)).drop (b + 18)).length = 1 := by
              rw [List.length_drop, hPlen]
              omega
            rw [hlen1] at hrest
            have hg := prefix_getD (helpEndText.drop 1)
              (formatHelp stdout ++ data.drop e) 0 ' ' hrest
              (by rw [List.length_drop, length_helpEndText]; omega)
            rw [getD_drop] at hg
            have hHS : (formatHelp stdout ++ data.drop e).getD 0 ' ' = '\n' := by
              rw [getD_append_left _ _ 0 ' ' hHlen, hHhead]
              rfl
            rw [hHS, (by decide : helpEndText.getD (1 + 0) ' ' = '.')] at hg
            exact absurd hg (by decide)
          · have hg := congrArg (fun l => l.getD 0 ' ') hXeq
            simp only at hg
            rw [getD_drop] at hg
            simp only [Nat.add_zero] at hg
            rw [getD_take data (b + 19) k ' ' (by omega),
              getD_take helpEndText _ 0 ' '
                (by rw [List.length_drop, hPlen]; omega)] at hg
            rw [(by decide : helpEndText.getD 0 ' ' = '.')] at hg
            have hg2 := occursAt_getD data helpBeginText b (k - b) ' ' hbocc
              (by rw [length_helpBeginText]; omega)
            rw [Nat.add_sub_cancel' (by omega : b ≤ k)] at hg2
            rw [hg2] at hg
            have hdec : ∀ t, 4 ≤ t → t < 18 →
                ¬ (helpBeginText.getD t ' ' = '.') := by decide
            exact hdec (k - b) (by omega) (by omega) hg

/-- C7 counterexample: when the captured output itself contains the end
marker, the first run succeeds but a second run with the same output finds
the end marker inside the freshly spliced block and produces a different
document: the splice is not idempotent as claimed. -/
theorem C7_counterexample :
    syncHelpBlock ".. END HELP TEXT".data
        "A\n.. BEGIN HELP TEXT\nB\n.. END HELP TEXT\nC\n".data =
      .written "A\n.. BEGIN HELP TEXT\n\nOutput of ``nirw-search --help``::\n\n   .. END HELP TEXT\n\n.. END HELP TEXT\nC\n".data ∧
    syncHelpBlock ".. END HELP TEXT".data
        "A\n.. BEGIN HELP TEXT\n\nOutput of ``nirw-search --help``::\n\n   .. END HELP TEXT\n\n.. END HELP TEXT\nC\n".data =
      .written "A\n.. BEGIN HELP TEXT\n\nOutput of ``nirw-search --help``::\n\n   .. END HELP TEXT\n\n.. END HELP TEXT\n\n.. END HELP TEXT\nC\n".data ∧
    "A\n.. BEGIN HELP TEXT\n\nOutput of ``nirw-search --help``::\n\n   .. END HELP TEXT\n\n.. END HELP TEXT\n\n.. END HELP TEXT\nC\n".data ≠
      "A\n.. BEGIN HELP TEXT\n\nOutput of ``nirw-search --help``::\n\n   .. END HELP TEXT\n\n.. END HELP TEXT\nC\n".data :=
  ⟨by decide, by decide, by decide⟩

/-- C7 (amended): whenever a run succeeds and the formatted block built from
the captured output does not contain the end-marker text, a second run with
the same captured output leaves the document unchanged: it writes back
exactly the document produced by the first run. -/
theorem C7_idempotent_when_block_clean (stdout data u : List Char)
    (h : syncHelpBlock stdout data = .written u)
    (hno : ∀ j, j < (formatHelp stdout).length →
      occursAt (formatHelp stdout) helpEndText j = false) :
    syncHelpBlock stdout u = .written u := by
  obtain ⟨b, e, hb, he, hu⟩ := sync_written_inv stdout data u h
  obtain ⟨hocc1, hocc2⟩ := second_run_first_occs stdout data b e hb he hno
  subst hu
  rw [sync_eq_written stdout _ b (b + 19 + (formatHelp stdout).length) hocc1 hocc2]
  obtain ⟨hw1, hw2, hw3⟩ := success_window data b e hb he
  have hPlen : (data.take (b + 19)).length = b + 19 := by
    rw [List.length_take]
    omega
  have h1 : (data.take (b + 19) ++ formatHelp stdout ++ data.drop e).take (b + 19) =
      data.take (b + 19) := by
    rw [List.append_assoc]
    exact take_append_self _ _ _ hPlen
  have h2 : (data.take (b + 19) ++ formatHelp stdout ++ data.drop e).drop
      (b + 19 + (formatHelp stdout).length) = data.drop e := by
    refine drop_append_self _ _ _ ?_
    rw [List.length_append, hPlen]
  rw [h1, h2]

/-- C7 witness: a second run on a spliced document whose block is free of the
end marker reproduces the document exactly. -/
theorem C7_witness :
    syncHelpBlock "usage: x".data
        "A\n.. BEGIN HELP TEXT\nB\n.. END HELP TEXT\nC\n".data =
      .written "A\n.. BEGIN HELP TEXT\n\nOutput of ``nirw-search --help``::\n\n   usage: x\n\n.. END HELP TEXT\nC\n".data ∧
    (∀ j, j < (formatHelp "usage: x".data).length →
      occursAt (formatHelp "usage: x".data) helpEndText j = false) ∧
    syncHelpBlock "usage: x".data
        "A\n.. BEGIN HELP TEXT\n\nOutput of ``nirw-search --help``::\n\n   usage: x\n\n.. END HELP TEXT\nC\n".data =
      .written "A\n.. BEGIN HELP TEXT\n\nOutput of ``nirw-search --help``::\n\n   usage: x\n\n.. END HELP TEXT\nC\n".data :=
  ⟨by decide, by decide,
   C7_idempotent_when_block_clean "usage: x".data
     "A\n.. BEGIN HELP TEXT\nB\n.. END HELP TEXT\nC\n".data
     "A\n.. BEGIN HELP TEXT\n\nOutput of ``nirw-search --help``::\n\n   usage: x\n\n.. END HELP TEXT\nC\n".data
     (by decide) (by decide)⟩
